import Mathlib

/-!
Shallow embedding of the in-memory filesystem model of the
`filesystem_in_a_file` crate, together with proofs settling the spec claims.

Conventions of the embedding:
* Rust `BTreeMap<K, V>` becomes an association list `List (K × V)` kept sorted
  by key through `mapInsert`; lookups mirror `BTreeMap::range(..pos+1).next_back()`
  via `lastLE`.
* Machine integers (`u64`/`usize`) become `Nat`: no arithmetic in the modelled
  code can overflow in a way a claim depends on, and all subtractions that the
  source performs are guarded the same way the source guards them.
* Byte buffers (`Bytes`, `Cow<[u8]>`) become `List Nat`.
* Rust methods that mutate `self` and return `Result<()>` become functions
  returning `Option FsError × State`: the returned state is the mutated one
  even on the error path, which is exactly what a Rust caller observes.
* `SystemTime`, `Mode`, `Uid`, `Gid`, `SFlag` and `Uuid` become `Nat`; their
  internal structure never matters to the modelled operations.
-/

namespace Fs

/-- Error kinds surfaced by the store (lib.rs `std::io::ErrorKind` values; the
`notAFile` variant models `Error::other("... is not a file")` used by
`get_file`/`get_file_mut`). -/
inductive FsError
| notFound
| alreadyExists
| isADirectory
| notADirectory
| directoryNotEmpty
| notAFile
deriving DecidableEq, Repr

/-- Extent of file content (file/mod.rs `enum Extent`). `owned` and `cloned`
come from the source; the source's `Cloned` also carries a `src_file`
back-reference used only for Debug output, which a value model cannot carry and
which no modelled operation reads, so it is dropped here. The `hole` variant is
modelled from the spec: the spec's data model lists a zero-filled
`Hole(length)` extent created by `truncate` past end-of-file, but no `Hole`
variant exists anywhere under the source tree. -/
inductive Extent
| owned (data : List Nat)
| cloned (srcRange : Nat × Nat) (data : List Nat)
| hole (length : Nat)
deriving DecidableEq, Repr

/-- Length of an extent (`Extent::len`): byte length of the data, and the
stored length for a spec-modelled hole. -/
def Extent.len : Extent → Nat
| .owned d => d.length
| .cloned _ d => d.length
| .hole n => n

/-- Materialised bytes of an extent (`Extent::data`). A spec-modelled hole
reads as zeros ("Carries no bytes; reading yields zeros"). -/
def Extent.data : Extent → List Nat
| .owned d => d
| .cloned _ d => d
| .hole n => List.replicate n 0

/-- Split an extent at a data offset (`Extent::split_at`), returning
(left, right). The source mutates the extent into the left half and returns
the right half; for `Cloned` the left half keeps the original `src_range`
unchanged (only `data` is mutated in place) and the right half gets
`(max(pos, src_range.0), min(pos, src_range.1))`, exactly as the source
computes it. Splitting a spec-modelled hole splits its length. -/
def Extent.splitAt : Extent → Nat → Extent × Extent
| .owned d, pos => (.owned (d.take pos), .owned (d.drop pos))
| .cloned r d, pos =>
    (.cloned r (d.take pos), .cloned (max pos r.1, min pos r.2) (d.drop pos))
| .hole n, pos => (.hole (min pos n), .hole (n - pos))

/-- The file's extent map `BTreeMap<u64, Extent>` as a key-sorted list. -/
abbrev ExtMap := List (Nat × Extent)

/-- Ordered-map insert mirroring `BTreeMap::insert`: keeps the list sorted by
key and replaces an existing binding of the same key. -/
def mapInsert : ExtMap → Nat → Extent → ExtMap
| [], k, v => [(k, v)]
| (k', v') :: t, k, v =>
    if k < k' then (k, v) :: (k', v') :: t
    else if k = k' then (k, v) :: t
    else (k', v') :: mapInsert t k v

/-- Last binding with key at most `pos`: `extents.range(..pos+1).next_back()`.
On a key-sorted list this is the greatest key not exceeding `pos`. -/
def lastLE : ExtMap → Nat → Option (Nat × Extent)
| [], _ => none
| (k, v) :: t, pos =>
    if k ≤ pos then
      match lastLE t pos with
      | some r => some r
      | none => some (k, v)
    else lastLE t pos

/-- Find the extent containing byte `pos` (file/mod.rs `File::extent_for_byte`):
the greatest key ≤ `pos`, kept only when `pos ≤ start + len` — the source's
filter is inclusive at the right end. -/
def extentForByte (m : ExtMap) (pos : Nat) : Option (Nat × Extent) :=
  match lastLE m pos with
  | some (s, e) => if pos ≤ s + e.len then some (s, e) else none
  | none => none

/-- Length of the file (file/mod.rs `File::len`): end of the last extent in
the map, or 0 when the map is empty. -/
def fileLen (m : ExtMap) : Nat :=
  match m.getLast? with
  | some (s, e) => s + e.len
  | none => 0

/-- A single step of the writer's overlap-splitting algorithm
(writer.rs `Writer::write`): given the extent map and current position,
returns the updated map and position. The source first splits an existing
extent covering `write_end` (left half stays at its key, right half is
inserted at `write_end`), then splits an extent covering `write_start`
(keeping the part before the write; if `right_split_idx < right.len()` it
re-inserts the first `right_split_idx` bytes of the severed tail at
`write_end`), then inserts the new extent at the write position. -/
def writerWrite (m : ExtMap) (pos : Nat) (ext : Extent) : ExtMap × Nat :=
  let extLen := ext.len
  let ws := pos
  let we := ws + extLen
  let m1 :=
    match extentForByte m we with
    | some (es, ee) =>
        let lr := ee.splitAt (we - es)
        mapInsert (mapInsert m es lr.1) we lr.2
    | none => m
  let m2 :=
    match extentForByte m1 ws with
    | some (es, ee) =>
        let splitIdx := ws - es
        let rightSplitIdx := we - splitIdx
        let lr := ee.splitAt splitIdx
        let mA := mapInsert m1 es lr.1
        if rightSplitIdx < lr.2.len then
          mapInsert mA we (lr.2.splitAt rightSplitIdx).1
        else mA
    | none => m1
  (mapInsert m2 ws ext, we)

/-- Seek origin (`std::io::SeekFrom`). -/
inductive SeekFrom
| start (n : Nat)
| fromEnd (n : Int)
| current (n : Int)
deriving DecidableEq, Repr

/-- Seek the writer (writer.rs `impl Seek for Writer`). A negative resulting
position is an `InvalidInput` error in the source and leaves the writer's
position unchanged, which is what the state component models. -/
def seekPos (m : ExtMap) (pos : Nat) : SeekFrom → Nat
| .start n => n
| .fromEnd off =>
    match ((fileLen m : Int) + off).toNat' with
    | some n => n
    | none => pos
| .current off =>
    match ((pos : Int) + off).toNat' with
    | some n => n
    | none => pos

/-- One writer operation: the extent-oriented `write`, the byte-oriented
`Write::write` (which wraps the bytes in an `Owned` extent), or a seek. -/
inductive WriteOp
| writeExt (e : Extent)
| writeBytes (b : List Nat)
| seek (s : SeekFrom)
deriving DecidableEq, Repr

/-- Apply one writer operation to the writer state (extent map, position). -/
def applyOp : ExtMap × Nat → WriteOp → ExtMap × Nat
| (m, pos), .writeExt e => writerWrite m pos e
| (m, pos), .writeBytes b => writerWrite m pos (.owned b)
| (m, pos), .seek s => (m, seekPos m pos s)

/-- Apply a sequence of writer operations starting from the empty file with a
writer opened at its end (position 0). -/
def applyOps (ops : List WriteOp) : ExtMap × Nat :=
  ops.foldl applyOp ([], 0)

/-- Non-overlap invariant claimed for extent maps: any two extents
`(s1, e1)`, `(s2, e2)` with `s1 < s2` satisfy `s1 + e1.len ≤ s2`. -/
def nonOverlapping (m : ExtMap) : Bool :=
  m.all fun p1 => m.all fun p2 => !(p1.1 < p2.1) || (p1.1 + p1.2.len ≤ p2.1)

/-- The naive flat-buffer write the spec compares against: overwrite bytes at
`pos`, zero-padding if the position is past the end of the buffer. -/
def flatWrite (buf : List Nat) (pos : Nat) (b : List Nat) : List Nat :=
  buf.take pos ++ List.replicate (pos - buf.length) 0 ++ b
    ++ buf.drop (pos + b.length)

/-- Apply a writer operation to the flat reference buffer with identical seek
semantics. -/
def flatApplyOp : List Nat × Nat → WriteOp → List Nat × Nat
| (buf, pos), .writeExt e => (flatWrite buf pos e.data, pos + e.len)
| (buf, pos), .writeBytes b => (flatWrite buf pos b, pos + b.length)
| (buf, pos), .seek s =>
    (buf,
      match s with
      | .start n => n
      | .fromEnd off =>
          match ((buf.length : Int) + off).toNat' with
          | some n => n
          | none => pos
      | .current off =>
          match ((pos : Int) + off).toNat' with
          | some n => n
          | none => pos)

/-- Naive flat result of a write sequence starting from an empty buffer. -/
def flatApplyOps (ops : List WriteOp) : List Nat × Nat :=
  ops.foldl flatApplyOp ([], 0)

/-- One call of reader.rs `Read::read` with a buffer at least as large as the
rest of the current extent (read_to_end always re-calls `read`, so buffer
chunking cannot change the accumulated result). Returns the bytes delivered
and the new position; `.error ()` models the source's `unreachable!` panic
when no extent covers the position. -/
def readStep (m : ExtMap) (pos : Nat) : Except Unit (List Nat × Nat) :=
  if fileLen m ≤ pos then .ok ([], pos)
  else
    match extentForByte m pos with
    | some (s, e) =>
        let rem := s + e.len - pos
        .ok ((e.data.drop (pos - s)).take rem, pos + rem)
    | none => .error ()

/-- Fuelled loop of `read_to_end`: keep reading until a read returns no bytes.
Fuel is an upper bound on iterations; every productive read advances the
position by at least one byte, so `fileLen m + 1` fuel always suffices. -/
def toBytesLoop : Nat → ExtMap → Nat → Except Unit (List Nat)
| 0, _, _ => .error ()
| fuel + 1, m, pos =>
    match readStep m pos with
    | .error u => .error u
    | .ok (chunk, pos') =>
        if chunk.isEmpty then .ok []
        else
          match toBytesLoop fuel m pos' with
          | .ok rest => .ok (chunk ++ rest)
          | .error u => .error u

/-- Materialise the whole file (file/mod.rs `File::to_bytes`, which drives the
reader with `read_to_end` from position 0). `.error ()` is the reader's
`unreachable!` panic. -/
def toBytes (m : ExtMap) : Except Unit (List Nat) :=
  toBytesLoop (fileLen m + 1) m 0

/-- Clone a byte range out of a file (file/mod.rs `File::clone`): iterate the
extents whose start key lies in `[rs, re)` (`extents.range(range)`), emitting
for each a `Cloned` extent with the clipped source interval and the
corresponding subslice of the extent's bytes. -/
def cloneRange (m : ExtMap) (rs re : Nat) : List Extent :=
  (m.filter fun p => rs ≤ p.1 && p.1 < re).map fun p =>
    let start := max rs p.1
    let stop := min re (p.1 + p.2.len)
    .cloned (start, stop) ((p.2.data.drop (start - p.1)).take (stop - start))

/-- Concatenated data of a list of extents. -/
def concatData (l : List Extent) : List Nat :=
  (l.map Extent.data).flatten

/-- Metadata of a filesystem entry (entry.rs `struct Metadata`); times, ids and
the mode are abstracted to `Nat`, xattrs to an association list of byte
strings. -/
structure Metadata where
  mode : Nat
  uid : Nat
  gid : Nat
  xattrs : List (List Nat × List Nat)
  created : Nat
  accessed : Nat
  modified : Nat
deriving DecidableEq, Repr

/-- Default metadata (entry.rs `impl Default for Metadata`): mode 0o444, root
ownership, no xattrs, all times at the epoch. -/
def Metadata.default : Metadata :=
  { mode := 0o444, uid := 0, gid := 0, xattrs := [], created := 0,
    accessed := 0, modified := 0 }

/-- A path, as its list of components; Rust compares paths and computes
`starts_with` component-wise. The empty list is the tree root (empty
`BytesPath`). -/
abbrev FsPath := List String

/-- A regular file: extent map plus metadata (spec data model `File{extents,
metadata}`; entry.rs accesses `f.metadata`, while the copy of the content
model under file/mod.rs stores the same metadata fields inline). -/
structure File where
  extents : ExtMap
  metadata : Metadata
deriving DecidableEq, Repr

/-- Default (empty) file. -/
def File.default : File := { extents := [], metadata := Metadata.default }

/-- A directory entry (entry.rs `enum Entry`): Directory, File, Special
(file_type + rdev + metadata) or Symlink (target + metadata). -/
inductive Entry
| directory (metadata : Metadata)
| file (f : File)
| special (fileType : Nat) (rdev : Nat) (metadata : Metadata)
| symlink (target : FsPath) (metadata : Metadata)
deriving DecidableEq, Repr

/-- Metadata accessor (entry.rs `Entry::metadata`). -/
def Entry.metadata : Entry → Metadata
| .directory m => m
| .file f => f.metadata
| .special _ _ m => m
| .symlink _ m => m

/-- Variant test generated by `IsVariant` (`Entry::is_directory`). -/
def Entry.isDirectory : Entry → Bool
| .directory _ => true
| _ => false

/-- Generic association-list get (used for the path map, the inode arena and
the refcount map). -/
def alGet {κ α : Type} [DecidableEq κ] : List (κ × α) → κ → Option α
| [], _ => none
| (k, v) :: t, q => if q = k then some v else alGet t q

/-- Generic association-list insert-or-replace. -/
def alInsert {κ α : Type} [DecidableEq κ] : List (κ × α) → κ → α → List (κ × α)
| [], k, v => [(k, v)]
| (k', v') :: t, k, v =>
    if k = k' then (k, v) :: t else (k', v') :: alInsert t k v

/-- Generic association-list removal. -/
def alRemove {κ α : Type} [DecidableEq κ] : List (κ × α) → κ → List (κ × α)
| [], _ => []
| (k', v') :: t, k => if k = k' then t else (k', v') :: alRemove t k

/-- Modify the value at a key, if present (`SecondaryMap::entry(..).and_modify`
and the panicking `map[key] -= 1`, which is only reached on present keys). -/
def alModify {κ α : Type} [DecidableEq κ] (f : α → α) :
    List (κ × α) → κ → List (κ × α)
| [], _ => []
| (k', v') :: t, k => if k = k' then (k', f v') :: t else (k', v') :: alModify f t k

/-- Full view of a filesystem (lib.rs `struct Filesystem`): an inode arena (a
`SlotMap`, modelled by a counter handing out fresh keys), refcounts, and the
path → inode map. -/
structure Filesystem where
  nextKey : Nat
  inodes : List (Nat × Entry)
  refcounts : List (Nat × Nat)
  paths : List (FsPath × Nat)
deriving DecidableEq, Repr

/-- An empty filesystem (`Filesystem::new`). -/
def Filesystem.new : Filesystem :=
  { nextKey := 0, inodes := [], refcounts := [], paths := [] }

/-- Insert an entry at a path (`Filesystem::insert`): allocate a fresh inode,
map the path to it, set its refcount to 1.  Returns the new key and the new
state. -/
def Filesystem.insert (fs : Filesystem) (p : FsPath) (e : Entry) :
    Nat × Filesystem :=
  let key := fs.nextKey
  (key,
    { nextKey := key + 1,
      inodes := alInsert fs.inodes key e,
      refcounts := alInsert fs.refcounts key 1,
      paths := alInsert fs.paths p key })

/-- Indexing the inode arena (`self.inodes[*key]` panics when absent; the
default is unreachable for any state built by the store operations, which keep
every path's key in the arena). -/
def Filesystem.entryAt (fs : Filesystem) (k : Nat) : Entry :=
  (alGet fs.inodes k).getD (.directory Metadata.default)

/-- Look up a path (`Filesystem::get`); `none` is the `NotFound` error. -/
def Filesystem.get (fs : Filesystem) (p : FsPath) : Option Entry :=
  (alGet fs.paths p).bind fun k => alGet fs.inodes k

/-- Remove a path association (`Filesystem::unlink`): drop the path and
decrement the inode's refcount, or fail `NotFound`. -/
def Filesystem.unlink (fs : Filesystem) (p : FsPath) :
    Option FsError × Filesystem :=
  match alGet fs.paths p with
  | none => (some .notFound, fs)
  | some key =>
      (none,
        { fs with
          paths := alRemove fs.paths p,
          refcounts := alModify (· - 1) fs.refcounts key })

/-- Move an inode association (`Filesystem::rename`). The source first
`remove`s `from` (failing `NotFound` when absent), then checks whether `to`
exists — failing `AlreadyExists` *after* the removal already happened — and
only then inserts `to`.  The returned state is the state a caller observes,
error or not. -/
def Filesystem.rename (fs : Filesystem) (src dst : FsPath) :
    Option FsError × Filesystem :=
  match alGet fs.paths src with
  | none => (some .notFound, fs)
  | some inode =>
      let fs1 := { fs with paths := alRemove fs.paths src }
      if (alGet fs1.paths dst).isSome then (some .alreadyExists, fs1)
      else (none, { fs1 with paths := alInsert fs1.paths dst inode })

/-- Create a hard link (`Filesystem::link`). The source's guard is
`if !self.inodes[*key].is_directory()` followed by the `IsADirectory` error,
i.e. it rejects exactly the non-directories and hard-links directories; the
embedding reproduces that literally. On success the refcount is incremented
and `new` is mapped to the same inode. -/
def Filesystem.link (fs : Filesystem) (old nw : FsPath) :
    Option FsError × Filesystem :=
  match alGet fs.paths old with
  | none => (some .notFound, fs)
  | some key =>
      if !(fs.entryAt key).isDirectory then (some .isADirectory, fs)
      else
        (none,
          { fs with
            refcounts := alModify (· + 1) fs.refcounts key,
            paths := alInsert fs.paths nw key })

/-- Does `q` start with `p`, component-wise (`Path::starts_with`)? -/
def pathStartsWith (q p : FsPath) : Bool :=
  p.isPrefixOf q

/-- Remove a directory (`Filesystem::rmdir`). The source validates: `NotFound`
via `get`, then `NotADirectory`, then a prefix scan for `DirectoryNotEmpty`
(any other path starting with the directory) — and then returns `Ok(())`
WITHOUT removing the path association; the embedding reproduces that. -/
def Filesystem.rmdir (fs : Filesystem) (p : FsPath) :
    Option FsError × Filesystem :=
  match fs.get p with
  | none => (some .notFound, fs)
  | some e =>
      if !e.isDirectory then (some .notADirectory, fs)
      else if fs.paths.any fun q => pathStartsWith q.1 p && q.1 ≠ p then
        (some .directoryNotEmpty, fs)
      else (none, fs)

/-- Spec §4.2 `truncate(new_len)` on an extent map. Modelled from the spec:
`Filesystem::truncate` (lib.rs) calls `File::truncate`, but no definition of
`File::truncate` exists anywhere under the source tree. Following the spec's
words: when shrinking, retain only extents with start below the new length and
split the last retained extent if it straddles it; when growing, append a
`Hole(new_len − len)` extent at key `len`; when equal, do nothing. -/
def truncMap (m : ExtMap) (n : Nat) : ExtMap :=
  let len := fileLen m
  if n < len then
    truncSplitLast (m.filter fun p => p.1 < n) n
  else if len < n then
    mapInsert m len (.hole (n - len))
  else m
where
  /-- Split the last retained extent at `n − start` when it straddles `n`. -/
  truncSplitLast : ExtMap → Nat → ExtMap
  | [], _ => []
  | [(s, e)], n => if n < s + e.len then [(s, (e.splitAt (n - s)).1)] else [(s, e)]
  | p :: q :: t, n => p :: truncSplitLast (q :: t) n

/-- Spec §4.2 truncate at the `File` level (spec-modelled, see `truncMap`). -/
def File.truncate (f : File) (n : Nat) : File :=
  { f with extents := truncMap f.extents n }

/-- Truncate a file at a path (`Filesystem::truncate`): `get_file_mut` — which
fails `NotFound` for a missing path and with the "is not a file" error for a
non-file entry — then `File::truncate`. -/
def Filesystem.truncate (fs : Filesystem) (p : FsPath) (n : Nat) :
    Option FsError × Filesystem :=
  match alGet fs.paths p with
  | none => (some .notFound, fs)
  | some key =>
      match alGet fs.inodes key with
      | some (.file f) =>
          (none, { fs with inodes := alInsert fs.inodes key (.file (f.truncate n)) })
      | some _ => (some .notAFile, fs)
      | none => (some .notFound, fs)

/-- Field mask for approximate equality (cmp.rs `bitflags Fields`), one flag
per bit. The `rdev` flag is modelled from the spec: the spec lists `RDEV`
among the members and entry.rs clears `Fields::RDEV`, but the copy of cmp.rs
under the source tree does not declare it. -/
structure Fields where
  path : Bool
  typ : Bool
  data : Bool
  extents : Bool
  time : Bool
  xattr : Bool
  mode : Bool
  owner : Bool
  rdev : Bool
deriving DecidableEq, Repr

/-- All flags set (`Fields::all`). -/
def Fields.all : Fields := ⟨true, true, true, true, true, true, true, true, true⟩

/-- Bitwise intersection (`Fields::intersection`). -/
def Fields.inter (a b : Fields) : Fields :=
  ⟨a.path && b.path, a.typ && b.typ, a.data && b.data, a.extents && b.extents,
    a.time && b.time, a.xattr && b.xattr, a.mode && b.mode, a.owner && b.owner,
    a.rdev && b.rdev⟩

/-- Bitwise difference (`Fields::remove` / the `-` operator). -/
def Fields.minus (a b : Fields) : Fields :=
  ⟨a.path && !b.path, a.typ && !b.typ, a.data && !b.data,
    a.extents && !b.extents, a.time && !b.time, a.xattr && !b.xattr,
    a.mode && !b.mode, a.owner && !b.owner, a.rdev && !b.rdev⟩

/-- Superset test (`Fields::contains`): every flag of `b` is set in `a`. -/
def Fields.sup (a b : Fields) : Bool :=
  (!b.path || a.path) && (!b.typ || a.typ) && (!b.data || a.data)
    && (!b.extents || a.extents) && (!b.time || a.time) && (!b.xattr || a.xattr)
    && (!b.mode || a.mode) && (!b.owner || a.owner) && (!b.rdev || a.rdev)

/-- The `PATH` flag. -/
def Fields.PATH : Fields :=
  ⟨true, false, false, false, false, false, false, false, false⟩

/-- The `TYPE` flag. -/
def Fields.TYPE : Fields :=
  ⟨false, true, false, false, false, false, false, false, false⟩

/-- The `DATA` flag. -/
def Fields.DATA : Fields :=
  ⟨false, false, true, false, false, false, false, false, false⟩

/-- The `EXTENTS` flag. -/
def Fields.EXTENTS : Fields :=
  ⟨false, false, false, true, false, false, false, false, false⟩

/-- The `TIME` flag. -/
def Fields.TIME : Fields :=
  ⟨false, false, false, false, true, false, false, false, false⟩

/-- The `XATTR` flag. -/
def Fields.XATTR : Fields :=
  ⟨false, false, false, false, false, true, false, false, false⟩

/-- The `MODE` flag. -/
def Fields.MODE : Fields :=
  ⟨false, false, false, false, false, false, true, false, false⟩

/-- The `OWNER` flag. -/
def Fields.OWNER : Fields :=
  ⟨false, false, false, false, false, false, false, true, false⟩

/-- The spec-modelled `RDEV` flag (see `Fields`). -/
def Fields.RDEV : Fields :=
  ⟨false, false, false, false, false, false, false, false, true⟩

/-- Everything but the path (`Fields::all_entry_fields`). -/
def Fields.allEntryFields : Fields := Fields.all.minus Fields.PATH

/-- Field-masked comparison of metadata (entry.rs `impl ApproxEq for
Metadata`): start from all flags, clear `MODE`, `OWNER`, `XATTR`, `TIME` on
the respective inequalities. -/
def Metadata.cmp (a b : Metadata) : Fields :=
  let f := Fields.all
  let f := if a.mode ≠ b.mode then f.minus .MODE else f
  let f := if a.uid ≠ b.uid ∨ a.gid ≠ b.gid then f.minus .OWNER else f
  let f := if a.xattrs ≠ b.xattrs then f.minus .XATTR else f
  if a.created ≠ b.created ∨ a.accessed ≠ b.accessed ∨ a.modified ≠ b.modified
  then f.minus .TIME else f

/-- Field-masked comparison of two Specials (entry.rs `impl ApproxEq for
Special`): metadata comparison, minus `TYPE` when the file types differ and
minus `RDEV` when the rdevs differ. -/
def specialCmp (ft1 rdev1 : Nat) (m1 : Metadata) (ft2 rdev2 : Nat)
    (m2 : Metadata) : Fields :=
  let f := m1.cmp m2
  let f := if ft1 ≠ ft2 then f.minus .TYPE else f
  if rdev1 ≠ rdev2 then f.minus .RDEV else f

/-- Field-masked comparison of two Symlinks (entry.rs `impl ApproxEq for
Symlink`): metadata comparison, minus `DATA` when the targets differ. -/
def symlinkCmp (t1 : FsPath) (m1 : Metadata) (t2 : FsPath) (m2 : Metadata) :
    Fields :=
  let f := m1.cmp m2
  if t1 ≠ t2 then f.minus .DATA else f

/-- Field-masked comparison of two Files. Modelled from the spec: entry.rs
dispatches to an `ApproxEq` impl for `File` that exists nowhere under the
source tree; per spec §4.4, `EXTENTS` = extent maps structurally equal and
`DATA` = materialised bytes equal. -/
def File.cmp (a b : File) : Fields :=
  let f := Fields.all
  let f := if a.extents ≠ b.extents then f.minus .EXTENTS else f
  if (toBytes a.extents).toOption ≠ (toBytes b.extents).toOption then
    f.minus .DATA
  else f

/-- Field-masked comparison of entries (entry.rs `impl ApproxEq for Entry`).
`f` is the metadata comparison; same-variant pairs intersect it with the
variant comparator — except the Special/Special arm, which the source writes
as `self.metadata().cmp(other.metadata())`, returning the metadata comparison
alone and never consulting `Special`'s own comparator — and different-variant
pairs lose `TYPE`. -/
def Entry.cmp (a b : Entry) : Fields :=
  let f := a.metadata.cmp b.metadata
  match a, b with
  | .directory s, .directory o => f.inter (Metadata.cmp s o)
  | .directory _, _ => f.minus .TYPE
  | .file s, .file o => f.inter (File.cmp s o)
  | .file _, _ => f.minus .TYPE
  | .special _ _ _, .special _ _ _ => a.metadata.cmp b.metadata
  | .special _ _ _, _ => f.minus .TYPE
  | .symlink s sm, .symlink o om => f.inter (symlinkCmp s sm o om)
  | .symlink _ _, _ => f.minus .TYPE

/-- Equality of filesystems (lib.rs `impl PartialEq for Filesystem`): walk
`self`'s paths, requiring the entry at each to exist and compare equal in
`other`, and require every path of `other` to have been visited. Inode key
identity does not contribute. -/
def Filesystem.eqv (a b : Filesystem) : Bool :=
  (a.paths.all fun pk =>
    match b.get pk.1 with
    | some o => a.entryAt pk.2 == o
    | none => false)
  && b.paths.all fun pk => (alGet a.paths pk.1).isSome

/-- Do the two filesystems have the same set of paths (the `HashSet`
comparison in lib.rs `impl ApproxEq for Filesystem`)? -/
def Filesystem.samePathSet (a b : Filesystem) : Bool :=
  (a.paths.all fun pk => (alGet b.paths pk.1).isSome)
  && b.paths.all fun pk => (alGet a.paths pk.1).isSome

/-- Field-masked comparison of filesystems (lib.rs `impl ApproxEq for
Filesystem`): start from all flags, clear `PATH` when the path sets differ,
then for each of `self`'s paths clear all entry fields when the path is
missing from `other` and otherwise intersect with the entry comparison. -/
def Filesystem.cmp (a b : Filesystem) : Fields :=
  let f := Fields.all
  let f := if a.samePathSet b then f else f.minus .PATH
  a.paths.foldl
    (fun f pk =>
      match b.get pk.1 with
      | none => f.minus Fields.allEntryFields
      | some o => f.inter ((a.entryAt pk.2).cmp o))
    f

/-- Approximate equality (cmp.rs `ApproxEq::approx_eq`): all required flags
survive the comparison. -/
def Filesystem.approxEq (a b : Filesystem) (required : Fields) : Bool :=
  (a.cmp b).sup required

/-- Sendstream commands (`sendstream_parser::Command`; the parser is an
external collaborator, so the command type is modelled here with the
store-backed subset of its variants that the replay engine dispatches on —
`Subvol` and `Snapshot` starts, a representative set of store mutators, the
no-op `End` and the unsupported `UpdateExtent`). Uuids are `Nat`. -/
inductive Command
| subvol (uuid : Nat)
| snapshot (uuid cloneUuid : Nat)
| mkdir (path : FsPath)
| mkfile (path : FsPath)
| link (target linkName : FsPath)
| rename (src dst : FsPath)
| unlink (path : FsPath)
| rmdir (path : FsPath)
| truncate (path : FsPath) (size : Nat)
| endCmd
| updateExtent
deriving DecidableEq, Repr

/-- Replay errors (btrfs.rs `enum Error`; `apply` wraps a store error with the
offending command). -/
inductive BtrfsError
| invariantViolated (msg : String)
| missingParent (uuid : Nat)
| apply (command : Command) (error : FsError)
deriving DecidableEq, Repr

/-- A subvolume (btrfs.rs `struct Subvol`): snapshot origin and filesystem. -/
structure Subvol where
  parentUuid : Option Nat
  fs : Filesystem
deriving DecidableEq, Repr

/-- The subvolume map (btrfs.rs `struct Subvols`): uuid → subvol. -/
structure Subvols where
  map : List (Nat × Subvol)
deriving DecidableEq, Repr

/-- Lift a fallible store operation into the replay loop (`apply_cmd` wraps a
`crate::Error` as `ApplyError::Apply`, which `receive` then tags with the
command). -/
def liftStore (c : Command) : Option FsError × Filesystem →
    Except BtrfsError Filesystem
| (some e, _) => .error (.apply c e)
| (none, fs) => .ok fs

/-- Apply one non-start command to the current subvolume (btrfs.rs
`Subvols::apply_cmd`). -/
def applyCmd (sv : Subvol) (c : Command) : Except BtrfsError Subvol :=
  match c with
  | .mkdir p => .ok { sv with fs := (sv.fs.insert p (.directory Metadata.default)).2 }
  | .mkfile p => .ok { sv with fs := (sv.fs.insert p (.file File.default)).2 }
  | .link t l => (liftStore c (sv.fs.link t l)).map fun fs => { sv with fs }
  | .rename s d => (liftStore c (sv.fs.rename s d)).map fun fs => { sv with fs }
  | .unlink p => (liftStore c (sv.fs.unlink p)).map fun fs => { sv with fs }
  | .rmdir p => (liftStore c (sv.fs.rmdir p)).map fun fs => { sv with fs }
  | .truncate p n => (liftStore c (sv.fs.truncate p n)).map fun fs => { sv with fs }
  | .endCmd => .ok sv
  | .snapshot _ _ => .error (.invariantViolated "attempted to apply snapshot")
  | .subvol _ => .error (.invariantViolated "attempted to apply subvol")
  | .updateExtent =>
      .error (.invariantViolated "UpdateExtent command is not supported")

/-- A fresh subvolume as `receive` builds it for a `Subvol` start: no parent,
and a filesystem holding a root `Directory` with default metadata. -/
def Subvol.fresh : Subvol :=
  { parentUuid := none, fs := (Filesystem.new.insert [] (.directory Metadata.default)).2 }

/-- Loop body of btrfs.rs `Subvols::receive`: after the first command has
established the current `(uuid, subvol)`, walk the remaining commands. A
mid-stream `Snapshot`/`Subvol` commits the current subvolume to the map and
begins a new one (failing `MissingParent` when a snapshot's clone source is
absent); any other command is applied to the current subvolume. After the
stream ends the current subvolume is committed. -/
def receiveLoop (s : Subvols) (uuid : Nat) (cur : Subvol) :
    List Command → Except BtrfsError Subvols
| [] => .ok ⟨alInsert s.map uuid cur⟩
| c :: rest =>
    match c with
    | .snapshot u cu =>
        let s1 : Subvols := ⟨alInsert s.map uuid cur⟩
        match alGet s1.map cu with
        | none => .error (.missingParent cu)
        | some parent => receiveLoop s1 u { parent with parentUuid := some cu } rest
    | .subvol u =>
        let s1 : Subvols := ⟨alInsert s.map uuid cur⟩
        receiveLoop s1 u Subvol.fresh rest
    | _ =>
        match applyCmd cur c with
        | .error e => .error e
        | .ok cur1 => receiveLoop s uuid cur1 rest

/-- Parse subvolumes from a sendstream (btrfs.rs `Subvols::receive`). The
source `expect`s at least one command, so the first command is a separate
argument. A `Subvol` start creates a fresh subvolume with a root directory; a
`Snapshot(u, c)` start looks up `c` — failing `MissingParent(c)` when absent —
clones that subvolume's state and sets its parent uuid to `c`; any other first
command fails `InvariantViolated`. -/
def receive (s : Subvols) (first : Command) (rest : List Command) :
    Except BtrfsError Subvols :=
  match first with
  | .snapshot u cu =>
      match alGet s.map cu with
      | none => .error (.missingParent cu)
      | some parent => receiveLoop s u { parent with parentUuid := some cu } rest
  | .subvol u => receiveLoop s u Subvol.fresh rest
  | _ => .error (.invariantViolated "first command was not subvol start")

/-- The later of two optional values, mirroring how `lastLE` prefers bindings
further down the list. -/
def takeLatter {α : Type} : Option α → Option α → Option α
| a, none => a
| _, some b => some b

/-- End offset of the last extent of a map, with an explicit default for the
empty map (`fileLen` is `endOfD m 0`). -/
def endOfD (m : ExtMap) (dflt : Nat) : Nat :=
  match m.getLast? with
  | some (s, e) => s + e.len
  | none => dflt

/-- Well-formedness of an extent map as a `BTreeMap` of disjoint extents:
consecutive bindings have strictly increasing keys and each extent ends no
later than the next key. -/
def chainOk : ExtMap → Bool
| [] => true
| [_] => true
| (s1, e1) :: (s2, e2) :: t =>
    decide (s1 < s2) && decide (s1 + e1.len ≤ s2) && chainOk ((s2, e2) :: t)

/-- Longest prefix of the extent map that is contiguous starting at `off`:
each extent starts exactly where the previous one ended. The first gap is the
point where this prefix stops. -/
def beforeGap : ExtMap → Nat → ExtMap
| [], _ => []
| (s, e) :: t, off => if s = off then (s, e) :: beforeGap t (s + e.len) else []

/-- Does the map contain a gap between two consecutive extents
(`s1 + e1.len < s2`)? -/
def hasGap : ExtMap → Bool
| [] => false
| [_] => false
| (s1, e1) :: (s2, e2) :: t => decide (s1 + e1.len < s2) || hasGap ((s2, e2) :: t)

/-- Key of the first extent of a map, if any. -/
def headKey (m : ExtMap) : Option Nat := m.head?.map Prod.fst

/-- Decidable equality for `Except`, so that reader results can be compared by
`decide`. -/
instance {ε α : Type} [DecidableEq ε] [DecidableEq α] :
    DecidableEq (Except ε α) := fun a b =>
  match a, b with
  | .ok x, .ok y =>
      if h : x = y then isTrue (by rw [h])
      else isFalse fun c => h (Except.ok.inj c)
  | .error x, .error y =>
      if h : x = y then isTrue (by rw [h])
      else isFalse fun c => h (Except.error.inj c)
  | .ok _, .error _ => isFalse fun c => Except.noConfusion c
  | .error _, .ok _ => isFalse fun c => Except.noConfusion c

/-! Theorems settling the claims, preceded by the helper lemmas they share. -/

theorem Extent.data_length (e : Extent) : e.data.length = e.len := by
  cases e <;> simp [Extent.data, Extent.len]

theorem Extent.splitAt_fst_data (e : Extent) (k : Nat) :
    (e.splitAt k).1.data = e.data.take k := by
  cases e with
  | owned d => rfl
  | cloned r d => rfl
  | hole n => simp [Extent.splitAt, Extent.data, List.take_replicate]

theorem Extent.splitAt_fst_len (e : Extent) (k : Nat) :
    (e.splitAt k).1.len = min k e.len := by
  rw [← Extent.data_length, Extent.splitAt_fst_data, List.length_take,
    Extent.data_length]

theorem takeLatter_assoc {α : Type} (a b c : Option α) :
    takeLatter a (takeLatter b c) = takeLatter (takeLatter a b) c := by
  cases c <;> cases b <;> rfl

theorem takeLatter_none_left {α : Type} (a : Option α) :
    takeLatter none a = a := by
  cases a <;> rfl

theorem lastLE_cons (k : Nat) (v : Extent) (t : ExtMap) (pos : Nat) :
    lastLE ((k, v) :: t) pos
      = if k ≤ pos then takeLatter (some (k, v)) (lastLE t pos)
        else lastLE t pos := by
  by_cases hk : k ≤ pos
  · simp only [lastLE, hk, if_true]
    cases lastLE t pos <;> rfl
  · simp only [lastLE, hk, if_false]

theorem lastLE_append (xs ys : ExtMap) (pos : Nat) :
    lastLE (xs ++ ys) pos = takeLatter (lastLE xs pos) (lastLE ys pos) := by
  induction xs with
  | nil => rw [List.nil_append, lastLE, takeLatter_none_left]
  | cons p t ih =>
      obtain ⟨k, v⟩ := p
      rw [List.cons_append, lastLE_cons, lastLE_cons, ih]
      by_cases hk : k ≤ pos
      · rw [if_pos hk, if_pos hk, takeLatter_assoc]
      · rw [if_neg hk, if_neg hk]

theorem lastLE_none_of_gt (pos : Nat) :
    ∀ m : ExtMap, (∀ p ∈ m, pos < p.1) → lastLE m pos = none
| [], _ => rfl
| (k, v) :: t, h => by
    rw [lastLE_cons, if_neg (by simpa using Nat.not_le_of_lt (h (k, v) (by simp)))]
    exact lastLE_none_of_gt pos t fun q hq => h q (by simp [hq])

theorem getLast?_cons_ne_none {α : Type} (q : α) :
    ∀ t : List α, (q :: t).getLast? ≠ none
| [] => by simp
| r :: t' => by rw [List.getLast?_cons_cons]; exact getLast?_cons_ne_none r t'

theorem endOfD_nil (d : Nat) : endOfD [] d = d := rfl

theorem endOf_cons (p : Nat × Extent) (X : ExtMap) (d : Nat) :
    endOfD (p :: X) d = endOfD X (p.1 + p.2.len) := by
  cases X with
  | nil => rfl
  | cons q t =>
      obtain ⟨r, hr⟩ : ∃ r, (q :: t).getLast? = some r := by
        cases h : (q :: t).getLast? with
        | some r => exact ⟨r, rfl⟩
        | none => exact absurd h (getLast?_cons_ne_none q t)
      rw [endOfD, endOfD, List.getLast?_cons_cons, hr]

theorem fileLen_eq_endOfD (m : ExtMap) : fileLen m = endOfD m 0 := rfl

theorem endOfD_append_singleton (xs : ExtMap) (s : Nat) (e : Extent) (d : Nat) :
    endOfD (xs ++ [(s, e)]) d = s + e.len := by
  rw [endOfD, List.getLast?_concat]

theorem chainOk_cons {p : Nat × Extent} {m : ExtMap}
    (h : chainOk (p :: m) = true) : chainOk m = true := by
  cases m with
  | nil => rfl
  | cons q t =>
      obtain ⟨k, v⟩ := p
      obtain ⟨k2, v2⟩ := q
      simp only [chainOk, Bool.and_eq_true] at h
      exact h.2

theorem chainOk_cons_cons {s1 : Nat} {e1 : Extent} {s2 : Nat} {e2 : Extent}
    {t : ExtMap} (h : chainOk ((s1, e1) :: (s2, e2) :: t) = true) :
    s1 < s2 ∧ s1 + e1.len ≤ s2 ∧ chainOk ((s2, e2) :: t) = true := by
  simp only [chainOk, Bool.and_eq_true, decide_eq_true_eq] at h
  exact ⟨h.1.1, h.1.2, h.2⟩

theorem chainOk_keys_ge_end {s : Nat} {e : Extent} :
    ∀ t : ExtMap, chainOk ((s, e) :: t) = true → ∀ p ∈ t, s + e.len ≤ p.1
| [], _, _, hp => by cases hp
| (s2, e2) :: t, h, p, hp => by
    obtain ⟨h1, h2, h3⟩ := chainOk_cons_cons h
    rcases List.mem_cons.mp hp with rfl | hp'
    · exact h2
    · have := chainOk_keys_ge_end t h3 p hp'
      have : s2 ≤ p.1 := le_trans (Nat.le_add_right s2 e2.len) this
      omega

theorem chainOk_keys_gt {s : Nat} {e : Extent} {t : ExtMap}
    (h : chainOk ((s, e) :: t) = true) : ∀ p ∈ t, s < p.1 := by
  intro p hp
  cases t with
  | nil => cases hp
  | cons q t' =>
      obtain ⟨s2, e2⟩ := q
      obtain ⟨h1, h2, h3⟩ := chainOk_cons_cons h
      rcases List.mem_cons.mp hp with rfl | hp'
      · exact h1
      · exact lt_of_lt_of_le h1
          (le_trans (Nat.le_add_right s2 e2.len) (chainOk_keys_ge_end t' h3 p hp'))

theorem chainOk_append_right : ∀ xs ys : ExtMap,
    chainOk (xs ++ ys) = true → chainOk ys = true
| [], _, h => h
| _ :: t, ys, h => chainOk_append_right t ys (chainOk_cons h)

theorem chainOk_endOf_le : ∀ (xs : ExtMap) {s : Nat} {e : Extent} {t : ExtMap},
    chainOk (xs ++ (s, e) :: t) = true → endOfD xs 0 ≤ s
| [], s, e, t, _ => Nat.zero_le s
| [(k, v)], s, e, t, h => by
    rw [endOfD]
    simpa using (chainOk_cons_cons h).2.1
| (k, v) :: (k2, v2) :: xs, s, e, t, h => by
    have ih := chainOk_endOf_le ((k2, v2) :: xs) (chainOk_cons h)
    rw [endOf_cons, endOf_cons]
    rw [endOf_cons] at ih
    exact ih
  termination_by xs => xs.length

theorem endOfD_irrel {m : ExtMap} (hm : m ≠ []) (d1 d2 : Nat) :
    endOfD m d1 = endOfD m d2 := by
  cases m with
  | nil => exact absurd rfl hm
  | cons p t => rw [endOf_cons, endOf_cons]

theorem chainOk_end_le_endOf {s : Nat} {e : Extent} :
    ∀ t : ExtMap, chainOk ((s, e) :: t) = true →
    s + e.len ≤ endOfD ((s, e) :: t) 0
| [], _ => le_of_eq (by rw [endOfD]; rfl)
| (s2, e2) :: t, h => by
    obtain ⟨h1, h2, h3⟩ := chainOk_cons_cons h
    have := chainOk_end_le_endOf t h3
    rw [endOf_cons, endOf_cons]
    rw [endOf_cons] at this
    calc s + e.len ≤ s2 := h2
      _ ≤ s2 + e2.len := Nat.le_add_right _ _
      _ ≤ endOfD t (s2 + e2.len) := by
          cases t with
          | nil => exact le_of_eq rfl
          | cons q t' =>
              rw [endOfD_irrel (by simp) (s2 + e2.len) 0]
              exact this

theorem chainOk_cons_of {s : Nat} {e : Extent} {X : ExtMap}
    (hX : chainOk X = true)
    (hhd : ∀ hd, X.head? = some hd → s < hd.1 ∧ s + e.len ≤ hd.1) :
    chainOk ((s, e) :: X) = true := by
  cases X with
  | nil => rfl
  | cons q t =>
      obtain ⟨k, v⟩ := q
      have := hhd (k, v) rfl
      simp only [chainOk, Bool.and_eq_true, decide_eq_true_eq]
      exact ⟨⟨this.1, this.2⟩, hX⟩

theorem endOfD_append (xs : ExtMap) {ys : ExtMap} (d : Nat) (h : ys ≠ []) :
    endOfD (xs ++ ys) d = endOfD ys d := by
  rw [endOfD, endOfD, List.getLast?_append_of_ne_nil xs h]

theorem beforeGap_cons (s : Nat) (e : Extent) (t : ExtMap) (off : Nat) :
    beforeGap ((s, e) :: t) off
      = if s = off then (s, e) :: beforeGap t (s + e.len) else [] := rfl

theorem beforeGap_eq_self {s : Nat} {e : Extent} {t : ExtMap} {off : Nat}
    (h : beforeGap ((s, e) :: t) off = (s, e) :: t) :
    s = off ∧ beforeGap t (s + e.len) = t := by
  rw [beforeGap_cons] at h
  by_cases hs : s = off
  · rw [if_pos hs] at h
    exact ⟨hs, (List.cons.inj h).2⟩
  · rw [if_neg hs] at h
    exact absurd h.symm (List.cons_ne_nil _ _)

theorem bg_le_endOf : ∀ (t : ExtMap) (off : Nat),
    beforeGap t off = t → off ≤ endOfD t off
| [], off, _ => le_refl off
| (s, e) :: t, off, h => by
    obtain ⟨hs, ht⟩ := beforeGap_eq_self h
    have ih := bg_le_endOf t (s + e.len) ht
    rw [endOf_cons]
    dsimp only
    omega

theorem bg_head {X : ExtMap} {off : Nat} (h : beforeGap X off = X)
    (hne : X ≠ []) : headKey X = some off := by
  cases X with
  | nil => exact absurd rfl hne
  | cons p t =>
      obtain ⟨s, e⟩ := p
      obtain ⟨hs, -⟩ := beforeGap_eq_self h
      rw [headKey, hs]
      rfl

theorem concatData_cons (e : Extent) (l : List Extent) :
    concatData (e :: l) = e.data ++ concatData l := rfl

theorem bg_concat_len : ∀ (m : ExtMap) (off : Nat),
    off + (concatData ((beforeGap m off).map Prod.snd)).length
      = endOfD (beforeGap m off) off
| [], off => by simp [beforeGap, concatData, endOfD]
| (s, e) :: t, off => by
    rw [beforeGap_cons]
    by_cases hs : s = off
    · rw [if_pos hs, List.map_cons, concatData_cons, endOf_cons]
      have ih := bg_concat_len t (s + e.len)
      rw [List.length_append, Extent.data_length]
      dsimp only
      omega
    · rw [if_neg hs]
      simp [concatData, endOfD]

theorem bg_no_gap : ∀ (m : ExtMap) (off : Nat),
    beforeGap m off = m → hasGap m = false
| [], _, _ => rfl
| [_], _, _ => rfl
| (s, e) :: (s2, e2) :: t, off, h => by
    obtain ⟨hs, ht⟩ := beforeGap_eq_self h
    obtain ⟨hs2, -⟩ := beforeGap_eq_self ht
    have ih := bg_no_gap ((s2, e2) :: t) (s + e.len) ht
    simp only [hasGap, ih, Bool.or_false, decide_eq_false_iff_not]
    omega

theorem toBytesLoop_eof {m : ExtMap} {pos : Nat} (f : Nat)
    (h : fileLen m ≤ pos) : toBytesLoop (f + 1) m pos = .ok [] := by
  simp [toBytesLoop, readStep, h]

theorem toBytesLoop_stop {m : ExtMap} {pos s : Nat} {e : Extent} (f : Nat)
    (hlt : ¬ fileLen m ≤ pos) (hfind : extentForByte m pos = some (s, e))
    (hrem : s + e.len = pos) : toBytesLoop (f + 1) m pos = .ok [] := by
  simp [toBytesLoop, readStep, hlt, hfind, hrem]

theorem toBytesLoop_chunk {m : ExtMap} {pos : Nat} {e : Extent} (f : Nat)
    (hlt : ¬ fileLen m ≤ pos) (hfind : extentForByte m pos = some (pos, e))
    (hne : e.len ≠ 0) :
    toBytesLoop (f + 1) m pos
      = match toBytesLoop f m (pos + e.len) with
        | .ok rest => .ok (e.data ++ rest)
        | .error u => .error u := by
  have hdata : e.data.isEmpty = false := by
    cases hd : e.data with
    | nil => exact absurd (by rw [← Extent.data_length, hd]; rfl) hne
    | cons a l => rfl
  simp only [toBytesLoop, readStep, if_neg hlt, hfind, Nat.add_sub_cancel_left,
    Nat.sub_self, List.drop_zero]
  rw [← Extent.data_length, List.take_length, hdata]
  simp

/-- Behaviour of the `read_to_end` loop on a well-formed map: reading from a
position that is the end of the already-consumed contiguous prefix `done`
delivers exactly the contiguous-from-`pos` prefix of `todo` and then stops
(either at end of file or at the first gap, where the source's inclusive
`extent_for_byte` filter finds the preceding extent with zero bytes
remaining and `read` returns 0). -/
theorem toBytesLoop_run :
    ∀ (todo done : ExtMap) (fuel pos : Nat),
    chainOk (done ++ todo) = true →
    fileLen (done ++ todo) - pos < fuel →
    ((done = [] ∧ pos = 0)
      ∨ ∃ dpre sl el, done = dpre ++ [(sl, el)] ∧ pos = sl + el.len) →
    (done = [] → todo = [] ∨ headKey todo = some 0) →
    toBytesLoop fuel (done ++ todo) pos
      = .ok (concatData ((beforeGap todo pos).map Prod.snd))
| todo, done, fuel, pos, hchain, hfuel, hpos, hhead => by
  obtain ⟨f, rfl⟩ : ∃ f, fuel = f + 1 := by
    cases fuel with
    | zero => omega
    | succ f => exact ⟨f, rfl⟩
  cases todo with
  | nil =>
      have hfl : fileLen (done ++ []) ≤ pos := by
        rcases hpos with ⟨rfl, rfl⟩ | ⟨dpre, sl, el, rfl, rfl⟩
        · exact le_refl 0
        · rw [List.append_nil, fileLen_eq_endOfD, endOfD_append_singleton]
      rw [toBytesLoop_eof f hfl]
      rfl
  | cons hd rest =>
      obtain ⟨s, e⟩ := hd
      have hchain' : chainOk ((s, e) :: rest) = true :=
        chainOk_append_right done _ hchain
      have hrestgt : ∀ p ∈ rest, s < p.1 := chainOk_keys_gt hchain'
      have hposle : pos ≤ s := by
        rcases hpos with ⟨rfl, rfl⟩ | ⟨dpre, sl, el, rfl, rfl⟩
        · exact Nat.zero_le s
        · have := chainOk_endOf_le (dpre ++ [(sl, el)]) hchain
          rwa [endOfD_append_singleton] at this
      have hflen : fileLen (done ++ (s, e) :: rest) = endOfD ((s, e) :: rest) 0 := by
        rw [fileLen_eq_endOfD, endOfD_append done 0 (List.cons_ne_nil _ _)]
      have hend : s + e.len ≤ fileLen (done ++ (s, e) :: rest) := by
        rw [hflen]; exact chainOk_end_le_endOf rest hchain'
      by_cases hse : s = pos
      · -- contiguous: the next extent starts exactly at the read position
        subst hse
        have hlast : lastLE (done ++ (s, e) :: rest) s = some (s, e) := by
          rw [lastLE_append, lastLE_cons, if_pos (le_refl s),
            lastLE_none_of_gt s rest hrestgt]
          rfl
        have hfind : extentForByte (done ++ (s, e) :: rest) s = some (s, e) := by
          have hle : s ≤ s + e.len := Nat.le_add_right s e.len
          simp [extentForByte, hlast, hle]
        rw [beforeGap_cons, if_pos rfl]
        by_cases hlen0 : e.len = 0
        · have hdata : e.data = [] :=
            List.length_eq_zero.mp (by rw [Extent.data_length, hlen0])
          have hrhs : beforeGap rest (s + e.len) = [] := by
            cases rest with
            | nil => rfl
            | cons q t =>
                obtain ⟨s2, e2⟩ := q
                have h2 := hrestgt (s2, e2) (by simp)
                rw [beforeGap_cons, if_neg (by omega)]
          rw [hrhs, List.map_cons, concatData_cons, hdata]
          by_cases hfl : fileLen (done ++ (s, e) :: rest) ≤ s
          · rw [toBytesLoop_eof f hfl]; rfl
          · rw [toBytesLoop_stop f hfl hfind (by omega)]; rfl
        · have hfl : ¬ fileLen (done ++ (s, e) :: rest) ≤ s := by omega
          rw [toBytesLoop_chunk f hfl hfind hlen0]
          have ih := toBytesLoop_run rest (done ++ [(s, e)]) f (s + e.len)
            (by rwa [List.append_assoc, List.singleton_append])
            (by rw [List.append_assoc, List.singleton_append]; omega)
            (Or.inr ⟨done, s, e, rfl, rfl⟩)
            (fun hcontra => absurd hcontra (by simp))
          rw [List.append_assoc, List.singleton_append] at ih
          rw [ih, List.map_cons, concatData_cons]
      · -- gap: the next extent starts strictly after the read position
        have hslt : pos < s := lt_of_le_of_ne hposle (fun hc => hse hc.symm)
        rw [beforeGap_cons, if_neg hse]
        rcases hpos with ⟨rfl, rfl⟩ | ⟨dpre, sl, el, rfl, rfl⟩
        · rcases hhead rfl with htodo | hhd
          · exact absurd htodo (List.cons_ne_nil _ _)
          · rw [headKey] at hhd
            have : s = 0 := by simpa using hhd
            omega
        · have hlastTodo : lastLE ((s, e) :: rest) (sl + el.len) = none := by
            refine lastLE_none_of_gt _ _ fun p hp => ?_
            rcases List.mem_cons.mp hp with rfl | hp'
            · exact hslt
            · exact lt_trans hslt (hrestgt p hp')
          have hlastDone :
              lastLE (dpre ++ [(sl, el)]) (sl + el.len) = some (sl, el) := by
            rw [lastLE_append, lastLE_cons,
              if_pos (Nat.le_add_right sl el.len)]
            rfl
          have hlastm :
              lastLE ((dpre ++ [(sl, el)]) ++ (s, e) :: rest) (sl + el.len)
                = some (sl, el) := by
            rw [lastLE_append, hlastTodo, hlastDone]
            rfl
          have hfind : extentForByte ((dpre ++ [(sl, el)]) ++ (s, e) :: rest)
              (sl + el.len) = some (sl, el) := by
            rw [extentForByte, hlastm]
            simp
          have hfl : ¬ fileLen ((dpre ++ [(sl, el)]) ++ (s, e) :: rest)
              ≤ sl + el.len := by
            have := hend
            omega
          rw [toBytesLoop_stop f hfl hfind rfl]
          rfl
  termination_by todo => todo.length

/-- Corollary of `toBytesLoop_run` at the start of the file: materialising a
well-formed file delivers exactly its contiguous-from-0 extent prefix. -/
theorem toBytes_of_contiguous {m : ExtMap} (hchain : chainOk m = true)
    (hhead : m = [] ∨ headKey m = some 0) :
    toBytes m = .ok (concatData ((beforeGap m 0).map Prod.snd)) := by
  rw [toBytes]
  exact toBytesLoop_run m [] (fileLen m + 1) 0 hchain
    (Nat.lt_succ_of_le (Nat.sub_le _ _)) (Or.inl ⟨rfl, rfl⟩) (fun _ => hhead)

/-- The contiguous prefix of a gapped well-formed map ends strictly before the
end of the file. -/
theorem bg_end_lt_of_gap : ∀ (m : ExtMap) (off : Nat), chainOk m = true →
    headKey m = some off → hasGap m = true →
    endOfD (beforeGap m off) off < endOfD m 0
| [], off, _, hhead, _ => by cases hhead
| [(s, e)], _, _, _, hgap => by cases hgap
| (s, e) :: (s2, e2) :: t, off, hchain, hhead, hgap => by
    have hs : s = off := by
      rw [headKey] at hhead
      simpa using hhead
    obtain ⟨h1, h2, h3⟩ := chainOk_cons_cons hchain
    rw [beforeGap_cons, if_pos hs, endOf_cons]
    dsimp only
    rw [endOf_cons]
    dsimp only
    rw [endOfD_irrel (List.cons_ne_nil _ _) (s + e.len) 0]
    by_cases hA : s + e.len < s2
    · have hbg : beforeGap ((s2, e2) :: t) (s + e.len) = [] := by
        rw [beforeGap_cons, if_neg (by omega)]
      rw [hbg]
      have := chainOk_end_le_endOf t h3
      rw [endOfD_nil]
      omega
    · have hs2 : s2 = s + e.len := by omega
      have hgap' : hasGap ((s2, e2) :: t) = true := by
        simp only [hasGap, Bool.or_eq_true, decide_eq_true_eq] at hgap
        rcases hgap with hlt | hg
        · exact absurd hlt hA
        · exact hg
      have ih := bg_end_lt_of_gap ((s2, e2) :: t) (s + e.len) h3
        (by rw [headKey, hs2]; rfl) hgap'
      rwa [endOfD_irrel (List.cons_ne_nil _ _) 0 (s + e.len)]

/-- C10 (amended by the counterexample): for a file whose extent map is
well-formed as a `BTreeMap` of non-overlapping extents *and whose first extent
starts at offset 0*, if the map has a gap then sequential reading from 0
returns everything up to the first gap and then reads 0 bytes (the source's
inclusive `extent_for_byte` filter finds the extent ending at the position,
the remaining count is 0, and `read_to_end` treats a 0-byte read as EOF): so
`to_bytes` succeeds with exactly the bytes of the contiguous prefix before
the first gap, and its length is strictly less than `len(file)`. No zeros are
ever synthesised for the gap. -/
theorem reader_stops_at_first_gap :
    ∀ m : ExtMap, chainOk m = true → headKey m = some 0 → hasGap m = true →
    toBytes m = .ok (concatData ((beforeGap m 0).map Prod.snd))
    ∧ (concatData ((beforeGap m 0).map Prod.snd)).length < fileLen m := by
  intro m hchain hhead hgap
  refine ⟨toBytes_of_contiguous hchain (Or.inr hhead), ?_⟩
  have hlen := bg_concat_len m 0
  have hlt := bg_end_lt_of_gap m 0 hchain hhead hgap
  rw [fileLen_eq_endOfD]
  omega

/-- Witness for the C10 theorem: the map `{0 ↦ [9] (1 byte), 2 ↦ [8]}` has a
gap at byte 1; reading returns exactly `[9]`, one byte, while the file length
is 3. -/
theorem reader_stops_at_first_gap_witness :
    toBytes [(0, .owned [9]), (2, .owned [8])]
      = .ok (concatData
          ((beforeGap [(0, .owned [9]), (2, .owned [8])] 0).map Prod.snd))
    ∧ (concatData
          ((beforeGap [(0, .owned [9]), (2, .owned [8])] 0).map Prod.snd)).length
      < fileLen [(0, .owned [9]), (2, .owned [8])] :=
  reader_stops_at_first_gap [(0, .owned [9]), (2, .owned [8])]
    (by decide) (by decide) (by decide)

theorem mapInsert_ne_nil (m : ExtMap) (k : Nat) (v : Extent) :
    mapInsert m k v ≠ [] := by
  cases m with
  | nil => exact List.cons_ne_nil _ _
  | cons p t =>
      obtain ⟨k', v'⟩ := p
      rw [mapInsert]
      split
      · exact List.cons_ne_nil _ _
      · split
        · exact List.cons_ne_nil _ _
        · exact List.cons_ne_nil _ _

/-- Effect of the spec-modelled shrink branch of `truncate` on a map that is
well-formed and contiguous from `off`: the retained (and last-split) extents
are again well-formed and contiguous from `off`, end exactly at `n`, and hold
exactly the first `n − off` of the file's bytes. -/
theorem shrink_spec : ∀ (m : ExtMap) (off n : Nat),
    chainOk m = true → beforeGap m off = m → off ≤ n → n ≤ endOfD m off →
    chainOk (truncMap.truncSplitLast (m.filter fun p => p.1 < n) n) = true
    ∧ beforeGap (truncMap.truncSplitLast (m.filter fun p => p.1 < n) n) off
        = truncMap.truncSplitLast (m.filter fun p => p.1 < n) n
    ∧ endOfD (truncMap.truncSplitLast (m.filter fun p => p.1 < n) n) off = n
    ∧ concatData
          ((truncMap.truncSplitLast (m.filter fun p => p.1 < n) n).map Prod.snd)
        = (concatData (m.map Prod.snd)).take (n - off)
| [], off, n, _, _, hle, hge => by
    have hn : n = off := le_antisymm (by rwa [endOfD_nil] at hge) hle
    subst hn
    refine ⟨rfl, rfl, rfl, ?_⟩
    rw [Nat.sub_self, List.take_zero]
    rfl
| (s, e) :: t, off, n, hchain, hbg, hle, hge => by
    obtain ⟨hs, ht⟩ := beforeGap_eq_self hbg
    subst hs
    rw [endOf_cons] at hge
    dsimp only at hge
    by_cases hsn : s < n
    · have hkeep : ((s, e) :: t).filter (fun p => decide (p.1 < n))
          = (s, e) :: t.filter (fun p => decide (p.1 < n)) := by
        rw [List.filter_cons_of_pos (by simpa using hsn)]
      by_cases hend : n ≤ s + e.len
      · have htf : t.filter (fun p => decide (p.1 < n)) = [] := by
          rw [List.filter_eq_nil_iff]
          intro p hp
          have := chainOk_keys_ge_end t hchain p hp
          simp only [decide_eq_true_eq]
          omega
        rw [hkeep, htf]
        by_cases hsplit : n < s + e.len
        · rw [truncMap.truncSplitLast, if_pos hsplit]
          have hlen : (e.splitAt (n - s)).1.len = n - s := by
            rw [Extent.splitAt_fst_len]
            exact Nat.min_eq_left (by omega)
          refine ⟨rfl, by rw [beforeGap_cons, if_pos rfl]; rfl, ?_, ?_⟩
          · rw [endOf_cons, endOfD_nil]
            dsimp only
            omega
          · simp only [List.map_cons, List.map_nil, concatData_cons]
            rw [Extent.splitAt_fst_data,
              List.take_append_of_le_length (by rw [Extent.data_length]; omega)]
            simp [concatData]
        · have hn : n = s + e.len := by omega
          rw [truncMap.truncSplitLast, if_neg hsplit]
          refine ⟨rfl, by rw [beforeGap_cons, if_pos rfl]; rfl, ?_, ?_⟩
          · rw [endOf_cons, endOfD_nil]
            dsimp only
            omega
          · simp only [List.map_cons, List.map_nil, concatData_cons]
            have harg : n - s = e.data.length := by
              rw [Extent.data_length]; omega
            rw [harg, List.take_left]
            simp [concatData]
      · -- the write range extends past this extent: recurse on the tail
        push_neg at hend
        obtain ⟨s2, e2, t', rfl⟩ : ∃ s2 e2 t', t = (s2, e2) :: t' := by
          cases t with
          | nil =>
              rw [endOfD_nil] at hge
              omega
          | cons q t' => exact ⟨q.1, q.2, t', by rw [Prod.mk.eta]⟩
        obtain ⟨hs2, -⟩ := beforeGap_eq_self ht
        have hchain' := chainOk_cons (p := (s, e)) hchain
        have ih := shrink_spec ((s2, e2) :: t') (s + e.len) n hchain' ht
          (by omega) hge
        have htf : ((s2, e2) :: t').filter (fun p => decide (p.1 < n))
            = (s2, e2) :: t'.filter (fun p => decide (p.1 < n)) := by
          rw [List.filter_cons_of_pos (by simp; omega)]
        have hsh : truncMap.truncSplitLast
            (((s, e) :: (s2, e2) :: t').filter fun p => decide (p.1 < n)) n
            = (s, e) :: truncMap.truncSplitLast
                (((s2, e2) :: t').filter fun p => decide (p.1 < n)) n := by
          rw [hkeep, htf, truncMap.truncSplitLast]
        rw [hsh]
        set sh := truncMap.truncSplitLast
          (((s2, e2) :: t').filter fun p => decide (p.1 < n)) n with hshdef
        have hshne : sh ≠ [] := by
          intro hcontra
          have := ih.2.2.1
          rw [hcontra, endOfD_nil] at this
          omega
        have hshhead : headKey sh = some (s + e.len) := bg_head ih.2.1 hshne
        obtain ⟨hlt12, -, -⟩ := chainOk_cons_cons hchain
        have helen : 0 < e.len := by omega
        refine ⟨?_, ?_, ?_, ?_⟩
        · refine chainOk_cons_of ih.1 fun hd hhd => ?_
          have : headKey sh = some hd.1 := by rw [headKey, hhd]; rfl
          rw [hshhead] at this
          have : hd.1 = s + e.len := by simpa using this.symm
          omega
        · rw [beforeGap_cons, if_pos rfl, ih.2.1]
        · rw [endOf_cons]
          dsimp only
          exact ih.2.2.1
        · simp only [List.map_cons, concatData_cons]
          rw [ih.2.2.2]
          have harg : n - s = e.data.length + (n - (s + e.len)) := by
            rw [Extent.data_length]; omega
          rw [harg, List.take_append]
          simp only [List.map_cons, concatData_cons]
    · -- n = s: nothing is retained
      have hn : n = s := by omega
      have hf : ((s, e) :: t).filter (fun p => decide (p.1 < n)) = [] := by
        rw [List.filter_eq_nil_iff]
        intro p hp
        simp only [decide_eq_true_eq]
        rcases List.mem_cons.mp hp with rfl | hp'
        · omega
        · have := chainOk_keys_gt hchain p hp'
          omega
      rw [hf]
      refine ⟨rfl, rfl, ?_, ?_⟩
      · show endOfD [] s = n
        rw [endOfD_nil]
        omega
      · rw [show n - s = 0 by omega, List.take_zero]
        rfl
  termination_by m => m.length

/-- Effect of the spec-modelled grow branch of `truncate`: inserting a hole at
the end offset of a well-formed map contiguous from `off` keeps it well-formed
and contiguous, extends its end by the hole's length, and appends that many
zeros to its materialised bytes. -/
theorem grow_spec : ∀ (m : ExtMap) (off k : Nat),
    chainOk m = true → beforeGap m off = m →
    chainOk (mapInsert m (endOfD m off) (.hole k)) = true
    ∧ beforeGap (mapInsert m (endOfD m off) (.hole k)) off
        = mapInsert m (endOfD m off) (.hole k)
    ∧ endOfD (mapInsert m (endOfD m off) (.hole k)) off = endOfD m off + k
    ∧ concatData ((mapInsert m (endOfD m off) (.hole k)).map Prod.snd)
        = concatData (m.map Prod.snd) ++ List.replicate k 0
| [], off, k, _, _ => by
    rw [endOfD_nil]
    refine ⟨rfl, ?_, ?_, ?_⟩
    · show beforeGap [(off, Extent.hole k)] off = [(off, Extent.hole k)]
      rw [beforeGap_cons, if_pos rfl]
      rfl
    · show endOfD [(off, Extent.hole k)] off = off + k
      rw [endOf_cons, endOfD_nil]
      rfl
    · show concatData ([(off, Extent.hole k)].map Prod.snd)
        = concatData (([] : ExtMap).map Prod.snd) ++ List.replicate k 0
      simp [concatData, Extent.data]
| (s, e) :: t, off, k, hchain, hbg => by
    obtain ⟨hs, ht⟩ := beforeGap_eq_self hbg
    subst hs
    rw [endOf_cons]
    dsimp only
    cases t with
    | nil =>
        rw [endOfD_nil]
        by_cases he : e.len = 0
        · have hdata : e.data = [] :=
            List.length_eq_zero.mp (by rw [Extent.data_length, he])
          have hins : mapInsert [(s, e)] (s + e.len) (.hole k)
              = [(s + e.len, .hole k)] := by
            rw [mapInsert, if_neg (by omega), if_pos (by omega)]
          rw [hins]
          refine ⟨rfl, ?_, ?_, ?_⟩
          · rw [beforeGap_cons, if_pos (by omega)]
            rfl
          · rw [endOf_cons, endOfD_nil]
            rfl
          · simp only [List.map_cons, List.map_nil, concatData_cons]
            rw [hdata]
            simp [concatData, Extent.data]
        · have hins : mapInsert [(s, e)] (s + e.len) (.hole k)
              = [(s, e), (s + e.len, .hole k)] := by
            rw [mapInsert, if_neg (by omega), if_neg (by omega), mapInsert]
          rw [hins]
          refine ⟨?_, ?_, ?_, ?_⟩
          · simp only [chainOk, Bool.and_eq_true, decide_eq_true_eq]
            exact ⟨⟨by omega, le_refl _⟩, trivial⟩
          · rw [beforeGap_cons, if_pos rfl, beforeGap_cons, if_pos rfl]
            rfl
          · rw [endOf_cons, endOf_cons, endOfD_nil]
            rfl
          · simp [concatData, Extent.data]
    | cons q t' =>
        obtain ⟨s2, e2⟩ := q
        obtain ⟨hs2, -⟩ := beforeGap_eq_self ht
        obtain ⟨hlt12, -, -⟩ := chainOk_cons_cons hchain
        have hLge : s + e.len ≤ endOfD ((s2, e2) :: t') (s + e.len) :=
          bg_le_endOf _ _ ht
        have helen : 0 < e.len := by omega
        have hins : mapInsert ((s, e) :: (s2, e2) :: t')
            (endOfD ((s2, e2) :: t') (s + e.len)) (.hole k)
            = (s, e) :: mapInsert ((s2, e2) :: t')
                (endOfD ((s2, e2) :: t') (s + e.len)) (.hole k) := by
          rw [mapInsert, if_neg (by omega), if_neg (by omega)]
        rw [hins]
        have ih := grow_spec ((s2, e2) :: t') (s + e.len) k
          (chainOk_cons hchain) ht
        have ihne := mapInsert_ne_nil ((s2, e2) :: t')
          (endOfD ((s2, e2) :: t') (s + e.len)) (.hole k)
        have ihhead := bg_head ih.2.1 ihne
        refine ⟨?_, ?_, ?_, ?_⟩
        · refine chainOk_cons_of ih.1 fun hd hhd => ?_
          have : headKey (mapInsert ((s2, e2) :: t')
              (endOfD ((s2, e2) :: t') (s + e.len)) (.hole k)) = some hd.1 := by
            rw [headKey, hhd]
            rfl
          rw [ihhead] at this
          have : hd.1 = s + e.len := by simpa using this.symm
          omega
        · rw [beforeGap_cons, if_pos rfl, ih.2.1]
        · rw [endOf_cons]
          dsimp only
          exact ih.2.2.1
        · simp only [List.map_cons, concatData_cons]
          rw [ih.2.2.2]
          simp only [List.map_cons, concatData_cons, List.append_assoc]
  termination_by m => m.length

/-- On a contiguous-from-0 map, the materialised bytes have exactly the file's
length. -/
theorem concat_length_of_contiguous {m : ExtMap} (hbg : beforeGap m 0 = m) :
    (concatData (m.map Prod.snd)).length = fileLen m := by
  have h := bg_concat_len m 0
  rw [hbg] at h
  rw [fileLen_eq_endOfD]
  omega

/-- C6 (amended by the counterexample): for every file whose extent map is
well-formed and *contiguous from offset 0*, the spec-modelled
`truncate(f, n)` produces a file of length exactly `n`; when `n ≤ len(f)` the
bytes in `[0, n)` are unchanged — `to_bytes` of the result is exactly the
first `n` bytes of the original — and when `n > len(f)` the result is the
original map with a `Hole(n − len(f))` extent inserted at key `len(f)`, which
reads as that many zeros. -/
theorem truncate_spec :
    ∀ (m : ExtMap) (n : Nat), chainOk m = true → beforeGap m 0 = m →
    fileLen (truncMap m n) = n
    ∧ (n ≤ fileLen m →
        toBytes (truncMap m n) = .ok ((concatData (m.map Prod.snd)).take n))
    ∧ (fileLen m < n →
        truncMap m n = mapInsert m (fileLen m) (.hole (n - fileLen m))
        ∧ toBytes (truncMap m n)
            = .ok (concatData (m.map Prod.snd)
                ++ List.replicate (n - fileLen m) 0)) := by
  intro m n hchain hbg
  rcases Nat.lt_trichotomy n (fileLen m) with hlt | heq | hgt
  · have hsp := shrink_spec m 0 n hchain hbg (Nat.zero_le n)
      (by rw [← fileLen_eq_endOfD]; omega)
    have htr : truncMap m n
        = truncMap.truncSplitLast (m.filter fun p => p.1 < n) n := by
      simp only [truncMap]
      rw [if_pos hlt]
    have hht : truncMap.truncSplitLast (m.filter fun p => p.1 < n) n = []
        ∨ headKey (truncMap.truncSplitLast (m.filter fun p => p.1 < n) n)
          = some 0 := by
      by_cases hne : truncMap.truncSplitLast (m.filter fun p => p.1 < n) n = []
      · exact Or.inl hne
      · exact Or.inr (bg_head hsp.2.1 hne)
    refine ⟨?_, fun _ => ?_, fun hgt2 => absurd hgt2 (by omega)⟩
    · rw [htr, fileLen_eq_endOfD]
      exact hsp.2.2.1
    · rw [htr, toBytes_of_contiguous hsp.1 hht, hsp.2.1, hsp.2.2.2,
        Nat.sub_zero]
  · have htr : truncMap m n = m := by
      simp only [truncMap]
      rw [if_neg (by omega), if_neg (by omega)]
    have hht : m = [] ∨ headKey m = some 0 := by
      by_cases hne : m = []
      · exact Or.inl hne
      · exact Or.inr (bg_head hbg hne)
    have hclen := concat_length_of_contiguous hbg
    refine ⟨by rw [htr]; omega, fun _ => ?_, fun hgt2 => absurd hgt2 (by omega)⟩
    rw [htr, toBytes_of_contiguous hchain hht, hbg,
      show n = (concatData (m.map Prod.snd)).length by omega, List.take_length]
  · have hgr := grow_spec m 0 (n - fileLen m) hchain hbg
    rw [← fileLen_eq_endOfD] at hgr
    have htr : truncMap m n = mapInsert m (fileLen m) (.hole (n - fileLen m)) := by
      simp only [truncMap]
      rw [if_neg (by omega), if_pos (by omega)]
    have hne := mapInsert_ne_nil m (fileLen m) (.hole (n - fileLen m))
    have hht : mapInsert m (fileLen m) (.hole (n - fileLen m)) = []
        ∨ headKey (mapInsert m (fileLen m) (.hole (n - fileLen m))) = some 0 :=
      Or.inr (bg_head hgr.2.1 hne)
    refine ⟨?_, fun hle => absurd hle (by omega), fun _ => ⟨htr, ?_⟩⟩
    · rw [htr, fileLen_eq_endOfD, hgr.2.2.1]
      omega
    · rw [htr, toBytes_of_contiguous hgr.1 hht, hgr.2.1, hgr.2.2.2]

/-- Witness for the C6 theorem: the one-extent file `[5,6,7]` truncated to 2
has length 2 and reads `[5,6]`. -/
theorem truncate_spec_witness :
    fileLen (truncMap [(0, Extent.owned [5, 6, 7])] 2) = 2
    ∧ toBytes (truncMap [(0, Extent.owned [5, 6, 7])] 2)
      = .ok ((concatData
          (([(0, Extent.owned [5, 6, 7])] : ExtMap).map Prod.snd)).take 2) :=
  ⟨(truncate_spec [(0, .owned [5, 6, 7])] 2 (by decide) (by decide)).1,
    (truncate_spec [(0, .owned [5, 6, 7])] 2 (by decide) (by decide)).2.1
      (by decide)⟩

/-- C6 counterexample to the claim as stated: shrinking the gapped file
`{0 ↦ 2 bytes, 5 ↦ 3 bytes}` (length 8) to `n = 4` retains only the extent at
key 0, which does not straddle 4, so the result has length 2 — not exactly
`n = 4` as the claim requires of every file. -/
theorem truncate_gap_counterexample :
    truncMap [(0, .owned [7, 7]), (5, .owned [8, 8, 8])] 4
      = [(0, .owned [7, 7])]
    ∧ fileLen (truncMap [(0, .owned [7, 7]), (5, .owned [8, 8, 8])] 4) ≠ 4 := by
  decide

/-- C10 counterexample to the claim as stated: the gapped map
`{4 ↦ 4 bytes, 12 ↦ 4 bytes}` (no extent covers position 0), where reading
from position 0 does not return the bytes before the gap and then 0 — it hits
the reader's `unreachable!` panic immediately, because `extent_for_byte(0)`
finds no extent, so `to_bytes` returns no byte prefix at all. -/
theorem reader_gap_counterexample :
    hasGap [(4, .owned [1, 2, 3, 4]), (12, .owned [5, 6, 7, 8])] = true
    ∧ chainOk [(4, .owned [1, 2, 3, 4]), (12, .owned [5, 6, 7, 8])] = true
    ∧ toBytes [(4, .owned [1, 2, 3, 4]), (12, .owned [5, 6, 7, 8])]
      = .error () := by
  decide

/-- C1: the claim that any write sequence leaves the extent map
non-overlapping and `to_bytes` equal to the flat-buffer reference fails on the
source. From the empty file, after `write [1,1,1,1]; write [2,2,2,2];
seek(Start 0); write [3,3,3,3,3,3,3,3]` the writer leaves the old extent at
key 4 inside the just-written range `[0, 8)` (its algorithm only splits
extents covering the endpoints and never removes bindings strictly inside the
range), so the map is overlapping; and after two further operations
`seek(Start 2); write [4,4]` the stale re-inserted extent at key 4 makes
`to_bytes` return 6 bytes `[3,3,4,4,3,3]` while the flat reference buffer is
`[3,3,4,4,3,3,3,3]`. -/
theorem writer_overlap_and_to_bytes_divergence :
    (applyOps [.writeBytes [1, 1, 1, 1], .writeBytes [2, 2, 2, 2],
        .seek (.start 0), .writeBytes [3, 3, 3, 3, 3, 3, 3, 3]]).1
      = [(0, .owned [3, 3, 3, 3, 3, 3, 3, 3]), (4, .owned [2, 2, 2, 2]),
          (8, .owned [])]
    ∧ nonOverlapping (applyOps [.writeBytes [1, 1, 1, 1],
        .writeBytes [2, 2, 2, 2], .seek (.start 0),
        .writeBytes [3, 3, 3, 3, 3, 3, 3, 3]]).1 = false
    ∧ toBytes (applyOps [.writeBytes [1, 1, 1, 1], .writeBytes [2, 2, 2, 2],
        .seek (.start 0), .writeBytes [3, 3, 3, 3, 3, 3, 3, 3],
        .seek (.start 2), .writeBytes [4, 4]]).1 = .ok [3, 3, 4, 4, 3, 3]
    ∧ (flatApplyOps [.writeBytes [1, 1, 1, 1], .writeBytes [2, 2, 2, 2],
        .seek (.start 0), .writeBytes [3, 3, 3, 3, 3, 3, 3, 3],
        .seek (.start 2), .writeBytes [4, 4]]).1
      = [3, 3, 4, 4, 3, 3, 3, 3] := by
  decide

/-- C2: the claim that `clone_range` returns extents whose concatenation is
exactly the requested byte range fails when the range starts strictly inside
an extent that begins before it. `File::clone` iterates
`extents.range(range)`, i.e. only extents whose *start key* lies inside the
range, so for the two-extent file holding bytes 0..25 the range `6..17`
yields only the clipped extent at key 11 — bytes `[11..16]` — and the bytes
`[6..10]` of the range are missing. -/
theorem clone_range_misses_leading_extent :
    cloneRange [(0, .owned [0, 1, 2, 3, 4, 5, 6, 7, 8, 9, 10]),
        (11, .owned [11, 12, 13, 14, 15, 16, 17, 18, 19, 20, 21, 22, 23, 24, 25])]
        6 17
      = [.cloned (11, 17) [11, 12, 13, 14, 15, 16]]
    ∧ toBytes [(0, .owned [0, 1, 2, 3, 4, 5, 6, 7, 8, 9, 10]),
        (11, .owned [11, 12, 13, 14, 15, 16, 17, 18, 19, 20, 21, 22, 23, 24, 25])]
      = .ok [0, 1, 2, 3, 4, 5, 6, 7, 8, 9, 10, 11, 12, 13, 14, 15, 16, 17, 18,
          19, 20, 21, 22, 23, 24, 25]
    ∧ concatData (cloneRange [(0, .owned [0, 1, 2, 3, 4, 5, 6, 7, 8, 9, 10]),
        (11, .owned [11, 12, 13, 14, 15, 16, 17, 18, 19, 20, 21, 22, 23, 24, 25])]
        6 17)
      ≠ [6, 7, 8, 9, 10, 11, 12, 13, 14, 15, 16] := by
  decide

/-- C3: the claim that `link` fails `IsADirectory` on directories and succeeds
on files fails on the source, whose guard is inverted
(`if !self.inodes[*key].is_directory()` precedes the `IsADirectory` error):
linking a regular file fails `IsADirectory`, while linking a directory
succeeds, incrementing the refcount and mapping the new path to the same
inode. -/
theorem link_rejects_file_accepts_directory :
    ((Filesystem.new.insert ["a"] (.file File.default)).2.link ["a"] ["b"]).1
      = some .isADirectory
    ∧ ((Filesystem.new.insert ["a"] (.file File.default)).2.link ["a"] ["b"]).2
      = (Filesystem.new.insert ["a"] (.file File.default)).2
    ∧ ((Filesystem.new.insert ["d"] (.directory Metadata.default)).2.link
        ["d"] ["e"]).1 = none
    ∧ alGet ((Filesystem.new.insert ["d"] (.directory Metadata.default)).2.link
        ["d"] ["e"]).2.paths ["e"] = some 0
    ∧ alGet ((Filesystem.new.insert ["d"] (.directory Metadata.default)).2.link
        ["d"] ["e"]).2.refcounts 0 = some 2 := by
  decide

/-- C4: the claim that `rename` is atomic fails on the source: it removes
`from` from the path map *before* checking whether `to` exists, and the
`AlreadyExists` error path never restores it. With `a ↦ inode 0` and
`b ↦ inode 1`, `rename(a, b)` fails `AlreadyExists` yet afterwards `a` is
gone from the path map (while `b` is untouched). -/
theorem rename_drops_source_on_conflict :
    (((Filesystem.new.insert ["a"] (.file File.default)).2.insert ["b"]
        (.directory Metadata.default)).2.rename ["a"] ["b"]).1
      = some .alreadyExists
    ∧ alGet (((Filesystem.new.insert ["a"] (.file File.default)).2.insert ["b"]
        (.directory Metadata.default)).2.rename ["a"] ["b"]).2.paths ["a"]
      = none
    ∧ alGet (((Filesystem.new.insert ["a"] (.file File.default)).2.insert ["b"]
        (.directory Metadata.default)).2.rename ["a"] ["b"]).2.paths ["b"]
      = some 1 := by
  decide

/-- C5: the claim that a successful `rmdir` removes the path association fails
on the source: `rmdir` validates (`NotFound`, `NotADirectory`,
`DirectoryNotEmpty` via the prefix scan) and then returns `Ok(())` without
touching the path map, so `get` still succeeds afterwards. -/
theorem rmdir_leaves_path_in_map :
    ((Filesystem.new.insert ["d"] (.directory Metadata.default)).2.rmdir
        ["d"]).1 = none
    ∧ ((Filesystem.new.insert ["d"] (.directory Metadata.default)).2.rmdir
        ["d"]).2
      = (Filesystem.new.insert ["d"] (.directory Metadata.default)).2
    ∧ ((Filesystem.new.insert ["d"] (.directory Metadata.default)).2.rmdir
        ["d"]).2.get ["d"] = some (.directory Metadata.default) := by
  decide

/-- C7: the claim that for two Specials `cmp` sets `TYPE` iff the file types
are equal and `RDEV` iff the rdevs are equal fails on the source:
`Entry::cmp`'s Special/Special arm is written
`self.metadata().cmp(other.metadata())`, discarding `Special`'s own
comparator, so two Specials with equal metadata but different rdevs compare
as `Fields::all()` — `RDEV` (and `TYPE`) are never cleared — even though the
unused `impl ApproxEq for Special` would clear `RDEV`. -/
theorem entry_cmp_ignores_special_fields :
    Entry.cmp (.special 1 1 Metadata.default) (.special 1 2 Metadata.default)
      = Fields.all
    ∧ (specialCmp 1 1 Metadata.default 1 2 Metadata.default).rdev = false
    ∧ Entry.cmp (.special 1 1 Metadata.default) (.special 2 1 Metadata.default)
      = Fields.all
    ∧ (specialCmp 1 1 Metadata.default 2 1 Metadata.default).typ = false := by
  decide

/-- C8: the claim `approx_eq(a, b, all) ↔ a == b` fails on the source: two
filesystems holding, at the same path, Special entries that differ only in
rdev are unequal under `PartialEq` (derived equality compares rdev) yet
compare approximately equal under the full mask, because `Entry::cmp` ignores
the Special-specific fields (see the C7 theorem). -/
theorem approx_eq_all_but_not_eq :
    Filesystem.approxEq
        (Filesystem.new.insert ["p"] (.special 1 1 Metadata.default)).2
        (Filesystem.new.insert ["p"] (.special 1 2 Metadata.default)).2
        Fields.all = true
    ∧ Filesystem.eqv
        (Filesystem.new.insert ["p"] (.special 1 1 Metadata.default)).2
        (Filesystem.new.insert ["p"] (.special 1 2 Metadata.default)).2
      = false := by
  decide

/-- C9: `receive` fails `InvariantViolated("first command was not subvol
start")` whenever the first command is neither `Subvol` nor `Snapshot`; a
first `Snapshot(u, c)` whose clone source `c` is absent from the subvol map
fails `MissingParent(c)`; and a first `Snapshot(u, c)` with `c` present
commits, for the stream consisting of that start, a subvolume under `u` whose
filesystem is a clone of `c`'s and whose parent uuid is `c`. -/
theorem receive_start_semantics :
    (∀ (s : Subvols) (first : Command) (rest : List Command),
      (∀ u, first ≠ .subvol u) → (∀ u c, first ≠ .snapshot u c) →
      receive s first rest
        = .error (.invariantViolated "first command was not subvol start"))
    ∧ (∀ (s : Subvols) (u c : Nat) (rest : List Command),
        alGet s.map c = none →
        receive s (.snapshot u c) rest = .error (.missingParent c))
    ∧ (∀ (s : Subvols) (u c : Nat) (parent : Subvol),
        alGet s.map c = some parent →
        receive s (.snapshot u c) []
          = .ok ⟨alInsert s.map u ⟨some c, parent.fs⟩⟩) := by
  refine ⟨?_, ?_, ?_⟩
  · intro s first rest h1 h2
    cases first with
    | subvol u => exact absurd rfl (h1 u)
    | snapshot u c => exact absurd rfl (h2 u c)
    | mkdir p => rfl
    | mkfile p => rfl
    | link t l => rfl
    | rename a b => rfl
    | unlink p => rfl
    | rmdir p => rfl
    | truncate p n => rfl
    | endCmd => rfl
    | updateExtent => rfl
  · intro s u c rest h
    simp only [receive, h]
  · intro s u c parent h
    simp only [receive, h, receiveLoop]

/-- Witness for the C9 theorem at concrete inputs: an `End` first command, a
snapshot of a missing parent, and a snapshot of a present parent. -/
theorem receive_start_semantics_witness :
    receive ⟨[]⟩ .endCmd []
      = .error (.invariantViolated "first command was not subvol start")
    ∧ receive ⟨[]⟩ (.snapshot 1 0) [] = .error (.missingParent 0)
    ∧ receive ⟨[(0, ⟨none, Filesystem.new⟩)]⟩ (.snapshot 1 0) []
      = .ok ⟨alInsert [(0, ⟨none, Filesystem.new⟩)] 1 ⟨some 0, Filesystem.new⟩⟩ :=
  ⟨receive_start_semantics.1 ⟨[]⟩ .endCmd []
      (fun _ h => Command.noConfusion h) (fun _ _ h => Command.noConfusion h),
    receive_start_semantics.2.1 ⟨[]⟩ 1 0 [] rfl,
    receive_start_semantics.2.2 ⟨[(0, ⟨none, Filesystem.new⟩)]⟩ 1 0
      ⟨none, Filesystem.new⟩ rfl⟩

end Fs

